import Mathlib

/-!
Verification of the navigation-graph and asset-cache subsystem of the
mapillary-js viewer.

The development shallowly embeds the relevant TypeScript sources:

* `src/graph/Node.ts` — the `Node` entity, its constructor, the derived
  getters (`loaded`, `merged`), the sequence lookups and the asset-cache
  operations `cacheImage`, `cacheMesh` and `cacheAssets`.
* `KeyboardComponent._navigatePanorama` — the angular edge-selection
  algorithm for panoramic stepping.
* `Spatial` (`rotationMatrix`, `rotate`) — axis-angle rotation math.

Numbers are embedded exactly: byte counts as `Nat`, angles and vector
components as `ℝ`.  Asynchronous observables (RxJS) are embedded as event
traces together with a `combineLatest` state machine processing an
arbitrary interleaving of the two sub-fetch traces.
-/

namespace MapillaryJS

/-! ## Basic data model (`Edge.ts`, `API.ts`, `Graph.ts`) -/

/-- Enumeration of edge directions (`EdgeDirection` in `Edge.ts`). -/
inductive EdgeDirection where
  | StepForward
  | StepBackward
  | StepLeft
  | StepRight
  | TurnLeft
  | TurnRight
  | TurnU
  | Pano
  | Next
  | Prev
deriving DecidableEq

/-- Payload of an edge (`IEdgeData`): its direction and the world-frame
bearing from source towards target, in radians. -/
structure IEdgeData where
  direction : EdgeDirection
  worldMotionAzimuth : ℝ

/-- A directed edge (`IEdge`): target key plus data. -/
structure IEdge where
  «to» : String
  data : IEdgeData

/-- Geographic coordinate (`ILatLon`), embedded with rational components. -/
structure ILatLon where
  lat : ℚ
  lon : ℚ
deriving DecidableEq

/-- Server metadata record (`IAPINavImIm`); only the fields this subsystem
reads are embedded.  `merge_version` is nullable in the source and drives
the `merged` getter. -/
structure IAPINavImIm where
  key : String
  merge_version : Option Int
deriving DecidableEq

/-- External `Sequence` collaborator: ordered key list interface offering
successor and predecessor lookups (`findNextKey` / `findPrevKey`).  Only the
interface is embedded; the node consults it through these two functions. -/
structure Sequence where
  findNextKey : String → Option String
  findPrevKey : String → Option String

/-- Load bookkeeping (`ILoadStatus`): bytes loaded and total bytes. -/
structure ILoadStatus where
  loaded : Nat
  total : Nat
deriving DecidableEq

/-- A decoded raster image (`HTMLImageElement`); its content is irrelevant
to this subsystem, so it is embedded as an opaque numeric tag. -/
structure HTMLImage where
  tag : Nat
deriving DecidableEq

/-- A decoded mesh (`IMesh`): face indices and vertex coordinates. -/
structure IMesh where
  faces : List Nat
  vertices : List ℚ
deriving DecidableEq

/-- The empty mesh `{faces: [], vertices: []}`. -/
def emptyMesh : IMesh := ⟨[], []⟩

/-! ## The `Node` entity (`Node.ts`) -/

/-- Graph node (`Node` in `Node.ts`).  Mutable TypeScript fields become
plain fields of an immutable record; the cache operation below produces
updated copies.  `image`, `mesh` and `edges` are nullable in the source and
therefore `Option`-valued here. -/
structure Node where
  worthy : Bool
  cached : Bool
  lastCacheEvict : Nat
  lastUsed : Nat
  apiNavImIm : IAPINavImIm
  key : String
  ca : ℚ
  latLon : ILatLon
  sequence : Option Sequence
  hs : List String
  image : Option HTMLImage
  mesh : Option IMesh
  edges : Option (List IEdge)
  loadStatus : ILoadStatus

/-- The `Node` constructor (`Node.ts` lines 37–64).  `new Date().getTime()`
is supplied by the environment as the `now` argument. -/
def Node.construct (ca : ℚ) (latLon : ILatLon) (worthy : Bool)
    (sequence : Option Sequence) (apiNavImIm : IAPINavImIm)
    (hs : List String) (now : Nat) : Node :=
  { apiNavImIm := apiNavImIm
    key := apiNavImIm.key
    ca := ca
    latLon := latLon
    sequence := sequence
    hs := hs
    image := none
    mesh := none
    edges := none
    worthy := worthy
    cached := false
    lastCacheEvict := 0
    lastUsed := now
    loadStatus := ⟨0, 100⟩ }

/-- Getter `Node.loaded`: `this.cached && this._image != null`. -/
def Node.loaded (n : Node) : Bool :=
  n.cached && n.image.isSome

/-- Getter `Node.merged`: `apiNavImIm != null && merge_version != null &&
merge_version > 0`.  A constructed node always carries its metadata record
(the constructor dereferences `apiNavImIm.key`), so the first conjunct is
embedded as always satisfied. -/
def Node.merged (n : Node) : Bool :=
  match n.apiNavImIm.merge_version with
  | none => false
  | some v => decide (0 < v)

/-- Method `Node.findNextKeyInSequence` (`Node.ts` lines 141–146): returns
null when no sequence is assigned, otherwise delegates to the sequence. -/
def Node.findNextKeyInSequence (n : Node) : Option String :=
  match n.sequence with
  | none => none
  | some s => s.findNextKey n.key

/-- Method `Node.findPrevKeyInSequence` (`Node.ts` lines 148–153). -/
def Node.findPrevKeyInSequence (n : Node) : Option String :=
  match n.sequence with
  | none => none
  | some s => s.findPrevKey n.key

/-! ## Asset-fetch traces (`Node.cacheImage`, `Node.cacheMesh`)

Each RxJS observable created by `cacheImage` / `cacheMesh` is embedded as
the finite trace of notifications it delivers to its subscriber:
`next` values, then one terminal `complete` or `error`. -/

/-- A reactive notification: `next` with a value, `complete`, or `error`. -/
inductive Ev (α : Type) where
  | next (v : α)
  | complete
  | error
deriving DecidableEq

/-- Value type emitted by the asset fetches (`ILoadStatusObject`): a load
status plus the (nullable) decoded object. -/
structure ILoadStatusObject (α : Type) where
  loaded : ILoadStatus
  object : Option α
deriving DecidableEq

/-- An XHR `onprogress` notification becomes a `next` carrying the byte
counts and a null object (`Node.ts` lines 205–207 and 238–240). -/
def progressEvent {α : Type} (p : Nat × Nat) : Ev (ILoadStatusObject α) :=
  Ev.next ⟨⟨p.1, p.2⟩, none⟩

/-- Terminal behaviour of the image transport/decode: either the decoded
image with its final byte counts, or a failure (`img.onerror`). -/
inductive ImageOutcome where
  | success (loaded total : Nat) (img : HTMLImage)
  | failure
deriving DecidableEq

/-- Environment of one image fetch: the progress notifications the
transport delivers, then its terminal outcome. -/
structure ImageResponse where
  progress : List (Nat × Nat)
  outcome : ImageOutcome
deriving DecidableEq

/-- Trace of `Node.cacheImage` (`Node.ts` lines 179–210): progress events,
then on success one `next` with the decoded image followed by `complete`,
and on failure an `error`.  URL construction and size selection are
external concerns with no bearing on the delivered notifications. -/
def cacheImage (rsp : ImageResponse) : List (Ev (ILoadStatusObject HTMLImage)) :=
  rsp.progress.map progressEvent ++
    match rsp.outcome with
    | ImageOutcome.success l t img => [Ev.next ⟨⟨l, t⟩, some img⟩, Ev.complete]
    | ImageOutcome.failure => [Ev.error]

/-- Environment of one mesh fetch: progress notifications, the HTTP status,
final byte counts, and the mesh `MeshReader.read` would decode on a 200. -/
structure MeshResponse where
  progress : List (Nat × Nat)
  status : Nat
  finalLoaded : Nat
  finalTotal : Nat
  payload : IMesh
deriving DecidableEq

/-- Result of `Node.cacheMesh`: the notification trace plus whether a
transport request (`xmlHTTP.send`) was issued. -/
structure MeshRun where
  trace : List (Ev (ILoadStatusObject IMesh))
  requested : Bool

/-- Trace of `Node.cacheMesh` (`Node.ts` lines 212–244): a non-merged node
short-circuits to the empty mesh with zero byte counts and no transport
request; a merged node issues the request, forwards progress, decodes the
payload on HTTP 200 and falls back to the empty mesh otherwise, then
completes.  The mesh observable never errors. -/
def cacheMesh (n : Node) (rsp : MeshResponse) : MeshRun :=
  if n.merged = false then
    ⟨[Ev.next ⟨⟨0, 0⟩, some emptyMesh⟩, Ev.complete], false⟩
  else
    ⟨rsp.progress.map progressEvent ++
        [Ev.next ⟨⟨rsp.finalLoaded, rsp.finalTotal⟩,
            some (if rsp.status = 200 then rsp.payload else emptyMesh)⟩,
          Ev.complete],
      true⟩

/-! ## Claim theorems about the plain `Node` operations -/

/-- C10: a freshly constructed `Node` starts uncached with no assets:
`cached` is false, `image`, `mesh` and `edges` are all null,
`lastCacheEvict` is 0 and `loadStatus` is `{loaded: 0, total: 100}`. -/
theorem node_constructor_initial_state (ca : ℚ) (latLon : ILatLon)
    (worthy : Bool) (sequence : Option Sequence) (apiNavImIm : IAPINavImIm)
    (hs : List String) (now : Nat) :
    (Node.construct ca latLon worthy sequence apiNavImIm hs now).cached = false ∧
    (Node.construct ca latLon worthy sequence apiNavImIm hs now).image = none ∧
    (Node.construct ca latLon worthy sequence apiNavImIm hs now).mesh = none ∧
    (Node.construct ca latLon worthy sequence apiNavImIm hs now).edges = none ∧
    (Node.construct ca latLon worthy sequence apiNavImIm hs now).lastCacheEvict = 0 ∧
    (Node.construct ca latLon worthy sequence apiNavImIm hs now).loadStatus = ⟨0, 100⟩ := by
  refine ⟨rfl, rfl, rfl, rfl, rfl, rfl⟩

/-- C9: the derived flag `loaded` is true exactly when the node is `cached`
and its `image` is non-null. -/
theorem loaded_iff_cached_and_image (n : Node) :
    n.loaded = true ↔ (n.cached = true ∧ n.image ≠ none) := by
  simp [Node.loaded, Option.isSome_iff_ne_none]

/-- C8: a node with no sequence assigned returns null from both
`findNextKeyInSequence` and `findPrevKeyInSequence`, without consulting any
lookup. -/
theorem find_keys_null_without_sequence (n : Node) (h : n.sequence = none) :
    n.findNextKeyInSequence = none ∧ n.findPrevKeyInSequence = none := by
  simp [Node.findNextKeyInSequence, Node.findPrevKeyInSequence, h]

/-- Sample metadata record used by concrete witnesses. -/
def sampleApi : IAPINavImIm := ⟨"key0", none⟩

/-- Sample node used by concrete witnesses: constructed with no sequence
and a metadata record carrying no merge version. -/
def sampleNode : Node :=
  Node.construct 0 ⟨0, 0⟩ false none sampleApi [] 0

/-- Witness for C8 at a concrete node with no sequence assigned. -/
theorem find_keys_null_without_sequence_witness :
    sampleNode.sequence = none ∧
      (sampleNode.findNextKeyInSequence = none ∧
        sampleNode.findPrevKeyInSequence = none) :=
  ⟨rfl, find_keys_null_without_sequence sampleNode rfl⟩

/-- C5: for a non-merged node, `cacheMesh` resolves immediately to the
empty mesh with zero load totals and issues no transport request. -/
theorem cacheMesh_not_merged (n : Node) (rsp : MeshResponse)
    (h : n.merged = false) :
    cacheMesh n rsp = ⟨[Ev.next ⟨⟨0, 0⟩, some emptyMesh⟩, Ev.complete], false⟩ := by
  simp [cacheMesh, h]

/-- Sample mesh-transport environment used by concrete witnesses. -/
def sampleMeshResponse : MeshResponse := ⟨[], 200, 7, 7, ⟨[1], [0]⟩⟩

/-- Witness for C5 at a concrete non-merged node. -/
theorem cacheMesh_not_merged_witness :
    sampleNode.merged = false ∧
      cacheMesh sampleNode sampleMeshResponse =
        ⟨[Ev.next ⟨⟨0, 0⟩, some emptyMesh⟩, Ev.complete], false⟩ :=
  ⟨rfl, cacheMesh_not_merged sampleNode sampleMeshResponse rfl⟩

/-! ## Spatial rotation math (`Spatial.ts`)

`Spatial.rotationMatrix` builds a THREE.js 4×4 rotation matrix from an
axis-angle triple (direction = rotation axis, magnitude = rotation angle)
and `Spatial.rotate` applies it to a vector.  The THREE.js primitives used
(`Vector3.length`, `Vector3.normalize`, `Matrix4.makeRotationAxis`,
`Vector3.applyMatrix4`) are embedded by their library definitions;
`normalize` of the zero vector leaves the zero vector (the `divideScalar`
guard), which the spec also mandates (magnitude 0 ⇒ identity rotation). -/

/-- A 3-component vector (`THREE.Vector3`). -/
structure Vec3 where
  x : ℝ
  y : ℝ
  z : ℝ

/-- Euclidean length of a vector (`THREE.Vector3.length`). -/
noncomputable def Vec3.length (v : Vec3) : ℝ :=
  Real.sqrt (v.x ^ 2 + v.y ^ 2 + v.z ^ 2)

/-- Normalization (`THREE.Vector3.normalize`, i.e. `divideScalar(length)`
with its zero-divisor guard leaving the vector components at zero). -/
noncomputable def Vec3.normalize (v : Vec3) : Vec3 :=
  if v.length = 0 then ⟨0, 0, 0⟩
  else ⟨v.x / v.length, v.y / v.length, v.z / v.length⟩

/-- Component-wise negation of an axis-angle triple. -/
def Vec3.neg (v : Vec3) : Vec3 := ⟨-v.x, -v.y, -v.z⟩

/-- A 4×4 homogeneous matrix (`THREE.Matrix4`), row-major fields as in the
`set(n11, …, n44)` call. -/
structure Mat4 where
  n11 : ℝ
  n12 : ℝ
  n13 : ℝ
  n14 : ℝ
  n21 : ℝ
  n22 : ℝ
  n23 : ℝ
  n24 : ℝ
  n31 : ℝ
  n32 : ℝ
  n33 : ℝ
  n34 : ℝ
  n41 : ℝ
  n42 : ℝ
  n43 : ℝ
  n44 : ℝ

/-- Rodrigues rotation matrix (`THREE.Matrix4.makeRotationAxis`): with
`c = cos angle`, `s = sin angle`, `t = 1 - c` the matrix rows are the
standard axis-angle rotation. -/
noncomputable def Mat4.makeRotationAxis (axis : Vec3) (angle : ℝ) : Mat4 :=
  let c := Real.cos angle
  let s := Real.sin angle
  let t := 1 - c
  let x := axis.x
  let y := axis.y
  let z := axis.z
  ⟨t * x * x + c, t * x * y - s * z, t * x * z + s * y, 0,
    t * x * y + s * z, t * y * y + c, t * y * z - s * x, 0,
    t * x * z - s * y, t * y * z + s * x, t * z * z + c, 0,
    0, 0, 0, 1⟩

/-- Application of a homogeneous matrix to a vector
(`THREE.Vector3.applyMatrix4`): the affine action using the upper three
rows.  For the rotation matrices built here the fourth row is `(0,0,0,1)`
and the translation column is zero. -/
noncomputable def applyMatrix4 (m : Mat4) (v : Vec3) : Vec3 :=
  ⟨m.n11 * v.x + m.n12 * v.y + m.n13 * v.z + m.n14,
    m.n21 * v.x + m.n22 * v.y + m.n23 * v.z + m.n24,
    m.n31 * v.x + m.n32 * v.y + m.n33 * v.z + m.n34⟩

/-- Method `Spatial.rotationMatrix` (`Spatial.ts` lines 7–15): the rotation angle
is the length of the axis-angle triple and the axis its normalization. -/
noncomputable def rotationMatrix (angleAxis : Vec3) : Mat4 :=
  Mat4.makeRotationAxis angleAxis.normalize angleAxis.length

/-- Method `Spatial.rotate` (`Spatial.ts` lines 17–23). -/
noncomputable def rotate (v : Vec3) (angleAxis : Vec3) : Vec3 :=
  applyMatrix4 (rotationMatrix angleAxis) v

/-- Normalization formula away from the zero vector. -/
theorem normalize_of_length_ne_zero (v : Vec3) (h : v.length ≠ 0) :
    v.normalize = ⟨v.x / v.length, v.y / v.length, v.z / v.length⟩ := by
  rw [Vec3.normalize, if_neg h]

/-- Rodrigues rotation about a unit axis is inverted by negating the axis:
the matrix for the negated axis is the transpose, and the product with the
original matrix is the identity whenever the axis has unit length. -/
theorem rodrigues_unit_inverse (p q w θ vx vy vz : ℝ)
    (hU : p ^ 2 + q ^ 2 + w ^ 2 = 1) :
    applyMatrix4 (Mat4.makeRotationAxis ⟨-p, -q, -w⟩ θ)
      (applyMatrix4 (Mat4.makeRotationAxis ⟨p, q, w⟩ θ) ⟨vx, vy, vz⟩) =
      ⟨vx, vy, vz⟩ := by
  have hsc : Real.sin θ ^ 2 + Real.cos θ ^ 2 = 1 := Real.sin_sq_add_cos_sq θ
  simp only [applyMatrix4, Mat4.makeRotationAxis, Vec3.mk.injEq]
  refine ⟨?_, ?_, ?_⟩
  · linear_combination
      (((1 - Real.cos θ) ^ 2 * p ^ 2 + Real.sin θ ^ 2) * vx +
          (1 - Real.cos θ) ^ 2 * p * q * vy +
          (1 - Real.cos θ) ^ 2 * p * w * vz) * hU +
        ((1 - p ^ 2) * vx - p * q * vy - p * w * vz) * hsc
  · linear_combination
      ((1 - Real.cos θ) ^ 2 * p * q * vx +
          ((1 - Real.cos θ) ^ 2 * q ^ 2 + Real.sin θ ^ 2) * vy +
          (1 - Real.cos θ) ^ 2 * q * w * vz) * hU +
        (-(p * q) * vx + (1 - q ^ 2) * vy - q * w * vz) * hsc
  · linear_combination
      ((1 - Real.cos θ) ^ 2 * p * w * vx +
          (1 - Real.cos θ) ^ 2 * q * w * vy +
          ((1 - Real.cos θ) ^ 2 * w ^ 2 + Real.sin θ ^ 2) * vz) * hU +
        (-(p * w) * vx - q * w * vy + (1 - w ^ 2) * vz) * hsc

/-- C7: rotating by an angle-axis triple and then by its component-wise
negation returns the original vector, over exact real arithmetic:
`rotate (rotate v r) (neg r) = v`. -/
theorem rotate_negate_roundtrip (v r : Vec3) :
    rotate (rotate v r) r.neg = v := by
  rcases v with ⟨vx, vy, vz⟩
  rcases r with ⟨x, y, z⟩
  by_cases h : Vec3.length ⟨x, y, z⟩ = 0
  · -- degenerate axis: the length is zero, hence all components vanish and
    -- both rotations are by angle zero about the guarded zero axis.
    have hsum : x ^ 2 + y ^ 2 + z ^ 2 = 0 :=
      (Real.sqrt_eq_zero (by positivity)).mp h
    have hx : x = 0 := by nlinarith [sq_nonneg x, sq_nonneg y, sq_nonneg z]
    have hy : y = 0 := by nlinarith [sq_nonneg x, sq_nonneg y, sq_nonneg z]
    have hz : z = 0 := by nlinarith [sq_nonneg x, sq_nonneg y, sq_nonneg z]
    subst hx; subst hy; subst hz
    simp [rotate, rotationMatrix, Vec3.normalize, Vec3.length, Vec3.neg,
      Mat4.makeRotationAxis, applyMatrix4]
  · have hL0 : 0 ≤ x ^ 2 + y ^ 2 + z ^ 2 := by positivity
    have hL2 : Vec3.length ⟨x, y, z⟩ ^ 2 = x ^ 2 + y ^ 2 + z ^ 2 :=
      Real.sq_sqrt hL0
    have hlen : Vec3.length ⟨x, y, z⟩ ≠ 0 := h
    have hlen_neg : Vec3.length ⟨-x, -y, -z⟩ = Vec3.length ⟨x, y, z⟩ := by
      rw [Vec3.length, Vec3.length]
      norm_num
    have hunit :
        (x / Vec3.length ⟨x, y, z⟩) ^ 2 + (y / Vec3.length ⟨x, y, z⟩) ^ 2 +
            (z / Vec3.length ⟨x, y, z⟩) ^ 2 = 1 := by
      field_simp
      linarith [hL2]
    have e1 : rotationMatrix ⟨x, y, z⟩ =
        Mat4.makeRotationAxis
          ⟨x / Vec3.length ⟨x, y, z⟩, y / Vec3.length ⟨x, y, z⟩,
            z / Vec3.length ⟨x, y, z⟩⟩ (Vec3.length ⟨x, y, z⟩) := by
      rw [rotationMatrix, normalize_of_length_ne_zero _ hlen]
    have e2 : rotationMatrix ⟨-x, -y, -z⟩ =
        Mat4.makeRotationAxis
          ⟨-(x / Vec3.length ⟨x, y, z⟩), -(y / Vec3.length ⟨x, y, z⟩),
            -(z / Vec3.length ⟨x, y, z⟩)⟩ (Vec3.length ⟨x, y, z⟩) := by
      rw [rotationMatrix, normalize_of_length_ne_zero _ (by rw [hlen_neg]; exact hlen),
        hlen_neg]
      norm_num [neg_div]
    show applyMatrix4 (rotationMatrix ⟨-x, -y, -z⟩)
        (applyMatrix4 (rotationMatrix ⟨x, y, z⟩) ⟨vx, vy, vz⟩) = ⟨vx, vy, vz⟩
    rw [e1, e2]
    exact rodrigues_unit_inverse _ _ _ _ vx vy vz hunit

/-! ## Panoramic edge selection (`KeyboardComponent._navigatePanorama`) -/

/-- Modelled from the spec: `Spatial.wrapAngle` is used by the edge
selector but its source is not among the provided files; the spec defines
it as normalizing an angle in radians to `(-π, π]`.  The unique such
representative of the class `angle + 2πℤ` is obtained by subtracting the
appropriate multiple of `2π`. -/
noncomputable def wrapAngle (angle : ℝ) : ℝ :=
  angle - 2 * Real.pi * ⌈(angle - Real.pi) / (2 * Real.pi)⌉

/-- Angles already in `(-π, π]` are fixed by `wrapAngle`. -/
theorem wrapAngle_eq_self {x : ℝ} (h1 : -Real.pi < x) (h2 : x ≤ Real.pi) :
    wrapAngle x = x := by
  have hpi := Real.pi_pos
  have hc : ⌈(x - Real.pi) / (2 * Real.pi)⌉ = 0 := by
    rw [Int.ceil_eq_zero_iff, Set.mem_Ioc]
    constructor
    · exact (lt_div_iff₀ (by linarith)).mpr (by linarith)
    · exact div_nonpos_of_nonpos_of_nonneg (by linarith) (by linarith)
  rw [wrapAngle, hc]
  push_cast
  ring

/-- Wrapping is invariant under shifting by integer multiples of `2π`. -/
theorem wrapAngle_add_two_pi_int (x : ℝ) (k : ℤ) :
    wrapAngle (x + 2 * Real.pi * k) = wrapAngle x := by
  have hpi : Real.pi ≠ 0 := Real.pi_ne_zero
  have harg : (x + 2 * Real.pi * k - Real.pi) / (2 * Real.pi) =
      (x - Real.pi) / (2 * Real.pi) + k := by
    field_simp
    ring
  rw [wrapAngle, wrapAngle, harg, Int.ceil_add_int]
  push_cast
  ring

/-- Wrapping the subtrahend first does not change the wrapped difference;
this connects the selector (which wraps the navigation angle before the
loop) with differences taken against the raw desired angle. -/
theorem wrapAngle_sub_wrapAngle (a b : ℝ) :
    wrapAngle (a - wrapAngle b) = wrapAngle (a - b) := by
  have : a - wrapAngle b =
      (a - b) + 2 * Real.pi * ⌈(b - Real.pi) / (2 * Real.pi)⌉ := by
    rw [wrapAngle]
    ring
  rw [this, wrapAngle_add_two_pi_int]

/-- Largest double (`Number.MAX_VALUE` = `(2⁵³ − 1)·2⁹⁷¹`), the initial
value of the running smallest angle in `_navigatePanorama` (line 140). -/
noncomputable def numberMaxValue : ℝ := (2 ^ 53 - 1) * 2 ^ 971

/-- Absolute wrapped angular difference between an edge's world motion
azimuth and the navigation angle (line 144):
`Math.abs(wrapAngle(edge.data.worldMotionAzimuth - navigationAngle))`. -/
noncomputable def panoDiff (navigationAngle : ℝ) (e : IEdge) : ℝ :=
  |wrapAngle (e.data.worldMotionAzimuth - navigationAngle)|

/-- Selection loop of `_navigatePanorama` (lines 143–150): fold over the
candidate edges keeping the smallest absolute wrapped angular difference
seen so far, accepting an edge as the running best only when its difference
is strictly below both the running smallest and the threshold. -/
noncomputable def selectBest (navigationAngle threshold : ℝ) :
    List IEdge → ℝ → Option String → Option String
  | [], _, toKey => toKey
  | e :: rest, smallestAngle, toKey =>
    let angle := panoDiff navigationAngle e
    if angle < min smallestAngle threshold then
      selectBest navigationAngle threshold rest angle (some e.«to»)
    else
      selectBest navigationAngle threshold rest smallestAngle toKey

/-- Candidate filter of `_navigatePanorama` (lines 134–138): edges whose
direction equals `Pano` or the requested step direction. -/
def panoCandidates (edges : List IEdge) (stepDirection : EdgeDirection) :
    List IEdge :=
  edges.filter fun e =>
    e.data.direction == EdgeDirection.Pano ||
      e.data.direction == stepDirection

/-- Angular edge selection of `KeyboardComponent._navigatePanorama`
(lines 130–154): wrap the navigation angle, filter the node's edges to the
requested step direction or `Pano`, and run the selection loop with
threshold `π/4` starting from `Number.MAX_VALUE` and a null key. -/
noncomputable def navigatePanorama (edges : List IEdge)
    (stepDirection : EdgeDirection) (navigationAngle : ℝ) : Option String :=
  let na := wrapAngle navigationAngle
  let threshold := Real.pi / 4
  selectBest na threshold (panoCandidates edges stepDirection)
    numberMaxValue none

/-- The per-edge difference computed by the loop (against the wrapped
navigation angle) agrees with the difference against the raw angle. -/
theorem panoDiff_wrap (navigationAngle : ℝ) (e : IEdge) :
    panoDiff (wrapAngle navigationAngle) e = panoDiff navigationAngle e := by
  rw [panoDiff, panoDiff, wrapAngle_sub_wrapAngle]

/-- If no remaining edge beats the current running bounds, the loop returns
the current key. -/
theorem selectBest_of_none_below (na t : ℝ) :
    ∀ (l : List IEdge) (s : ℝ) (k : Option String),
      (∀ e ∈ l, ¬ panoDiff na e < min s t) →
      selectBest na t l s k = k := by
  intro l
  induction l with
  | nil => intro s k _; rfl
  | cons e rest ih =>
    intro s k h
    have he : ¬ panoDiff na e < min s t := h e (List.mem_cons_self e rest)
    simp only [selectBest]
    rw [if_neg he]
    exact ih s k fun f hf => h f (List.mem_cons_of_mem e hf)

/-- The loop returns the key of the first candidate attaining the minimum
difference, provided that minimum beats the running bounds: every earlier
candidate is strictly worse and every later one at least as bad. -/
theorem selectBest_first_min (na t : ℝ) (e : IEdge) :
    ∀ (l1 l2 : List IEdge) (s : ℝ) (k : Option String),
      panoDiff na e < min s t →
      (∀ f ∈ l1, panoDiff na e < panoDiff na f) →
      (∀ f ∈ l2, panoDiff na e ≤ panoDiff na f) →
      selectBest na t (l1 ++ e :: l2) s k = some e.«to» := by
  intro l1
  induction l1 with
  | nil =>
    intro l2 s k he _ hl2
    rw [List.nil_append]
    simp only [selectBest]
    rw [if_pos he]
    apply selectBest_of_none_below
    intro f hf
    have hle : panoDiff na e ≤ panoDiff na f := hl2 f hf
    have het : panoDiff na e < t := lt_of_lt_of_le he (min_le_right s t)
    rw [min_eq_left (le_of_lt het)]
    exact not_lt.mpr hle
  | cons f l1 ih =>
    intro l2 s k he hl1 hl2
    have hef : panoDiff na e < panoDiff na f :=
      hl1 f (List.mem_cons_self f l1)
    rw [List.cons_append]
    simp only [selectBest]
    by_cases hf : panoDiff na f < min s t
    · rw [if_pos hf]
      refine ih l2 (panoDiff na f) (some f.«to») ?_ ?_ hl2
      · exact lt_min hef (lt_of_lt_of_le he (min_le_right s t))
      · exact fun g hg => hl1 g (List.mem_cons_of_mem f hg)
    · rw [if_neg hf]
      exact ih l2 s k he (fun g hg => hl1 g (List.mem_cons_of_mem f hg)) hl2

/-- Every non-empty edge list has a first minimizer of the wrapped angular
difference: a decomposition with all earlier edges strictly worse and all
edges at least as bad. -/
theorem exists_first_min (na : ℝ) :
    ∀ (l : List IEdge), l ≠ [] →
      ∃ (l1 : List IEdge) (e : IEdge) (l2 : List IEdge),
        l = l1 ++ e :: l2 ∧ (∀ f ∈ l1, panoDiff na e < panoDiff na f) ∧
          ∀ f ∈ l, panoDiff na e ≤ panoDiff na f := by
  intro l
  induction l with
  | nil => intro h; exact absurd rfl h
  | cons a l ih =>
    intro _
    rcases eq_or_ne l [] with rfl | hl
    · exact ⟨[], a, [], rfl, by simp, by simp⟩
    · obtain ⟨l1, e, l2, hdec, hstrict, hmin⟩ := ih hl
      by_cases hae : panoDiff na a ≤ panoDiff na e
      · refine ⟨[], a, l, rfl, by simp, ?_⟩
        intro f hf
        rcases List.mem_cons.mp hf with rfl | hf
        · exact le_refl _
        · exact le_trans hae (hmin f hf)
      · refine ⟨a :: l1, e, l2, by rw [hdec, List.cons_append], ?_, ?_⟩
        · intro f hf
          rcases List.mem_cons.mp hf with rfl | hf
          · exact lt_of_not_le hae
          · exact hstrict f hf
        · intro f hf
          rcases List.mem_cons.mp hf with rfl | hf
          · exact le_of_lt (lt_of_not_le hae)
          · exact hmin f hf

/-- The threshold `π/4` is below the loop's initial running value
`Number.MAX_VALUE`. -/
theorem pi_div_four_lt_numberMaxValue : Real.pi / 4 < numberMaxValue := by
  have h1 : Real.pi ≤ 4 := Real.pi_le_four
  have h2 : (1 : ℝ) ≤ 2 ^ 971 := one_le_pow₀ (by norm_num)
  have h3 : (2 : ℝ) ≤ 2 ^ 53 - 1 := by norm_num
  have h4 : (2 : ℝ) ≤ numberMaxValue := by
    rw [numberMaxValue]
    nlinarith
  linarith

/-- C1: the panoramic edge selector considers exactly the edges whose
direction equals the requested step direction or `Pano`; when some
candidate's absolute wrapped angular difference to the desired navigation
angle is strictly below `π/4` it returns the target key of a candidate
minimizing that difference (itself below the threshold), and when no
candidate is strictly below the threshold it returns none. -/
theorem panorama_selection_minimizes (edges : List IEdge)
    (stepDirection : EdgeDirection) (navigationAngle : ℝ) :
    ((∃ e ∈ panoCandidates edges stepDirection,
        panoDiff navigationAngle e < Real.pi / 4) →
      ∃ e ∈ panoCandidates edges stepDirection,
        navigatePanorama edges stepDirection navigationAngle = some e.«to» ∧
          panoDiff navigationAngle e < Real.pi / 4 ∧
          ∀ f ∈ panoCandidates edges stepDirection,
            panoDiff navigationAngle e ≤ panoDiff navigationAngle f) ∧
    ((∀ e ∈ panoCandidates edges stepDirection,
        ¬ panoDiff navigationAngle e < Real.pi / 4) →
      navigatePanorama edges stepDirection navigationAngle = none) := by
  have hmv : min numberMaxValue (Real.pi / 4) = Real.pi / 4 :=
    min_eq_right (le_of_lt pi_div_four_lt_numberMaxValue)
  constructor
  · rintro ⟨e0, he0, he0t⟩
    have hne : panoCandidates edges stepDirection ≠ [] := by
      intro hnil
      rw [hnil] at he0
      exact absurd he0 (List.not_mem_nil e0)
    obtain ⟨l1, e, l2, hdec, hstrict, hminall⟩ :=
      exists_first_min navigationAngle (panoCandidates edges stepDirection) hne
    have het : panoDiff navigationAngle e < Real.pi / 4 :=
      lt_of_le_of_lt (hminall e0 he0) he0t
    refine ⟨e, ?_, ?_, het, hminall⟩
    · rw [hdec]
      exact List.mem_append_right l1 (List.mem_cons_self e l2)
    · rw [navigatePanorama, hdec]
      apply selectBest_first_min
      · rw [panoDiff_wrap, hmv]
        exact het
      · intro f hf
        rw [panoDiff_wrap, panoDiff_wrap]
        exact hstrict f hf
      · intro f hf
        rw [panoDiff_wrap, panoDiff_wrap]
        exact hminall f (by rw [hdec]; exact
          List.mem_append_right l1 (List.mem_cons_of_mem e hf))
  · intro hall
    rw [navigatePanorama]
    apply selectBest_of_none_below
    intro f hf
    rw [panoDiff_wrap, hmv]
    exact hall f hf

/-- Concrete edge used by the C1 witness: a `StepForward` edge at azimuth
zero towards key `"a"`. -/
noncomputable def witnessEdgeA : IEdge := ⟨"a", ⟨EdgeDirection.StepForward, 0⟩⟩

/-- Witness for C1: with a single `StepForward` candidate at azimuth zero
and desired angle zero, the below-threshold hypothesis holds and the
selector returns a minimizing candidate. -/
theorem panorama_selection_minimizes_witness :
    (∃ e ∈ panoCandidates [witnessEdgeA] EdgeDirection.StepForward,
        panoDiff 0 e < Real.pi / 4) ∧
      ∃ e ∈ panoCandidates [witnessEdgeA] EdgeDirection.StepForward,
        navigatePanorama [witnessEdgeA] EdgeDirection.StepForward 0 =
            some e.«to» ∧
          panoDiff 0 e < Real.pi / 4 ∧
          ∀ f ∈ panoCandidates [witnessEdgeA] EdgeDirection.StepForward,
            panoDiff 0 e ≤ panoDiff 0 f := by
  have hpi := Real.pi_pos
  have h0 : wrapAngle 0 = 0 :=
    wrapAngle_eq_self (by linarith) (by linarith)
  have hd : panoDiff 0 witnessEdgeA = 0 := by
    simp [panoDiff, witnessEdgeA, h0]
  have hmem : witnessEdgeA ∈
      panoCandidates [witnessEdgeA] EdgeDirection.StepForward := by
    simp [panoCandidates, witnessEdgeA]
  have hex : ∃ e ∈ panoCandidates [witnessEdgeA] EdgeDirection.StepForward,
      panoDiff 0 e < Real.pi / 4 :=
    ⟨witnessEdgeA, hmem, by rw [hd]; linarith⟩
  exact ⟨hex,
    (panorama_selection_minimizes [witnessEdgeA] EdgeDirection.StepForward 0).1 hex⟩

/-- C2: ties are broken by edge-list order.  If the candidate list splits
as `l1 ++ e1 :: l2 ++ e2 :: l3` where `e1` and `e2` have exactly equal
wrapped angular differences below the `π/4` threshold, that tied value is
the minimum over the candidates and every edge before `e1` is strictly
worse, then the selector returns the key of `e1` — the first of the tied
edges in the node's edge list order — because the strict less-than
comparison never lets a later edge displace an equally good earlier one;
selection is thus a deterministic function of the edge list order. -/
theorem panorama_selection_tiebreak_first (edges : List IEdge)
    (stepDirection : EdgeDirection) (navigationAngle : ℝ)
    (l1 l2 l3 : List IEdge) (e1 e2 : IEdge)
    (hsplit : panoCandidates edges stepDirection =
      l1 ++ e1 :: (l2 ++ e2 :: l3))
    (heq : panoDiff navigationAngle e1 = panoDiff navigationAngle e2)
    (hthr : panoDiff navigationAngle e1 < Real.pi / 4)
    (hfirst : ∀ f ∈ l1,
      panoDiff navigationAngle e1 < panoDiff navigationAngle f)
    (hmin : ∀ f ∈ panoCandidates edges stepDirection,
      panoDiff navigationAngle e1 ≤ panoDiff navigationAngle f) :
    navigatePanorama edges stepDirection navigationAngle = some e1.«to» := by
  have hmv : min numberMaxValue (Real.pi / 4) = Real.pi / 4 :=
    min_eq_right (le_of_lt pi_div_four_lt_numberMaxValue)
  rw [navigatePanorama, hsplit]
  apply selectBest_first_min
  · rw [panoDiff_wrap, hmv]
    exact hthr
  · intro f hf
    rw [panoDiff_wrap, panoDiff_wrap]
    exact hfirst f hf
  · intro f hf
    rw [panoDiff_wrap, panoDiff_wrap]
    refine hmin f ?_
    rw [hsplit]
    exact List.mem_append_right l1 (List.mem_cons_of_mem e1 hf)

/-- Concrete edge at azimuth `+π/6` towards key `"b1"`, the earlier of the
two tied edges in the C2 witness. -/
noncomputable def tieEdge1 : IEdge := ⟨"b1", ⟨EdgeDirection.StepForward, Real.pi / 6⟩⟩

/-- Concrete edge at azimuth `-π/6` towards key `"b2"`, the later of the
two tied edges in the C2 witness. -/
noncomputable def tieEdge2 : IEdge := ⟨"b2", ⟨EdgeDirection.StepForward, -(Real.pi / 6)⟩⟩

/-- Witness for C2: two `StepForward` edges at `+π/6` and `-π/6` from a
desired angle of zero are tied below threshold, and the selector resolves
to the first (`+π/6`) edge. -/
theorem panorama_selection_tiebreak_first_witness :
    panoCandidates [tieEdge1, tieEdge2] EdgeDirection.StepForward =
        [] ++ tieEdge1 :: ([] ++ tieEdge2 :: []) ∧
      panoDiff 0 tieEdge1 = panoDiff 0 tieEdge2 ∧
      panoDiff 0 tieEdge1 < Real.pi / 4 ∧
      navigatePanorama [tieEdge1, tieEdge2] EdgeDirection.StepForward 0 =
        some tieEdge1.«to» := by
  have hpi := Real.pi_pos
  have hw1 : wrapAngle (Real.pi / 6) = Real.pi / 6 :=
    wrapAngle_eq_self (by linarith) (by linarith)
  have hw2 : wrapAngle (-(Real.pi / 6)) = -(Real.pi / 6) :=
    wrapAngle_eq_self (by linarith) (by linarith)
  have hd1 : panoDiff 0 tieEdge1 = Real.pi / 6 := by
    rw [panoDiff]
    simp only [tieEdge1, sub_zero]
    rw [hw1, abs_of_pos (by linarith)]
  have hd2 : panoDiff 0 tieEdge2 = Real.pi / 6 := by
    rw [panoDiff]
    simp only [tieEdge2, sub_zero]
    rw [hw2, abs_neg, abs_of_pos (by linarith)]
  have hsplit : panoCandidates [tieEdge1, tieEdge2] EdgeDirection.StepForward =
      [] ++ tieEdge1 :: ([] ++ tieEdge2 :: []) := by
    simp [panoCandidates, tieEdge1, tieEdge2]
  have heq : panoDiff 0 tieEdge1 = panoDiff 0 tieEdge2 := by
    rw [hd1, hd2]
  have hthr : panoDiff 0 tieEdge1 < Real.pi / 4 := by
    rw [hd1]
    linarith
  refine ⟨hsplit, heq, hthr, ?_⟩
  apply panorama_selection_tiebreak_first _ _ _ [] [] [] tieEdge1 tieEdge2
      hsplit heq hthr (by simp)
  intro f hf
  rw [hsplit] at hf
  rcases List.mem_cons.mp hf with rfl | hf
  · exact le_refl _
  · rcases List.mem_cons.mp hf with rfl | hf
    · rw [hd1, hd2]
    · exact absurd hf (List.not_mem_nil f)

/-! ## The combined asset fetch (`Node.cacheAssets`)

`cacheAssets` combines the image and mesh observables with RxJS
`combineLatest` and a result selector (`Node.ts` lines 155–177).  The
operator is embedded as a state machine processing an arbitrary
interleaving of the two notification traces: it remembers the latest value
of each source, runs the selector and emits its result whenever a source
emits once both have emitted, completes when both sources have completed,
errors as soon as either source errors, and delivers nothing further after
a terminal notification. -/

/-- Result selector of `cacheAssets` (lines 159–175): reset `loadStatus`,
then add the mesh and image byte counts and store the delivered objects.
The emitted records are always non-null, so both `if` branches of the
source always execute; the delivered `object` fields (null on progress
notifications) land directly in the node's `mesh` and `image`. -/
def assetsProject (n : Node) (image : ILoadStatusObject HTMLImage)
    (mesh : ILoadStatusObject IMesh) : Node :=
  { n with
    mesh := mesh.object
    image := image.object
    loadStatus := ⟨mesh.loaded.loaded + image.loaded.loaded,
      mesh.loaded.total + image.loaded.total⟩ }

/-- A notification fed to the combination: from the image fetch (left) or
the mesh fetch (right). -/
def AssetEvent : Type :=
  Sum (Ev (ILoadStatusObject HTMLImage)) (Ev (ILoadStatusObject IMesh))

/-- State of the combination: latest value and completion flag per source,
whether a terminal notification has been delivered (`halted`), the node
(mutated by the selector), and the notifications delivered so far. -/
structure CombinedState where
  latestImage : Option (ILoadStatusObject HTMLImage)
  latestMesh : Option (ILoadStatusObject IMesh)
  imageDone : Bool
  meshDone : Bool
  halted : Bool
  node : Node
  output : List (Ev Node)

/-- One `combineLatest` step. -/
def combineStep (st : CombinedState) (ev : AssetEvent) : CombinedState :=
  if st.halted then st else
  match ev with
  | Sum.inl (Ev.next v) =>
    match st.latestMesh with
    | some m =>
      let n := assetsProject st.node v m
      { st with
        latestImage := some v
        node := n
        output := st.output ++ [Ev.next n] }
    | none => { st with latestImage := some v }
  | Sum.inl Ev.complete =>
    if st.meshDone then
      { st with
        imageDone := true
        halted := true
        output := st.output ++ [Ev.complete] }
    else { st with imageDone := true }
  | Sum.inl Ev.error =>
    { st with
      halted := true
      output := st.output ++ [Ev.error] }
  | Sum.inr (Ev.next v) =>
    match st.latestImage with
    | some i =>
      let n := assetsProject st.node i v
      { st with
        latestMesh := some v
        node := n
        output := st.output ++ [Ev.next n] }
    | none => { st with latestMesh := some v }
  | Sum.inr Ev.complete =>
    if st.imageDone then
      { st with
        meshDone := true
        halted := true
        output := st.output ++ [Ev.complete] }
    else { st with meshDone := true }
  | Sum.inr Ev.error =>
    { st with
      halted := true
      output := st.output ++ [Ev.error] }

/-- Initial state of one `cacheAssets` invocation on a node. -/
def initialState (n : Node) : CombinedState :=
  ⟨none, none, false, false, false, n, []⟩

/-- The state reached by one `cacheAssets` invocation after the given
scheduled sequence of source notifications. -/
def cacheAssetsRun (n : Node) (evs : List AssetEvent) : CombinedState :=
  evs.foldl combineStep (initialState n)

/-- Relation `Interleave la lb cs`: `cs` is an order-preserving merge of the two
source traces, the schedules the single-threaded event loop can deliver. -/
inductive Interleave {α β : Type} : List α → List β → List (Sum α β) → Prop
  | nil : Interleave [] [] []
  | left {a : α} {la : List α} {lb : List β} {cs : List (Sum α β)} :
      Interleave la lb cs → Interleave (a :: la) lb (Sum.inl a :: cs)
  | right {b : β} {la : List α} {lb : List β} {cs : List (Sum α β)} :
      Interleave la lb cs → Interleave la (b :: lb) (Sum.inr b :: cs)

/-- A halted state absorbs every further event. -/
theorem combineStep_halted (st : CombinedState) (ev : AssetEvent)
    (h : st.halted = true) : combineStep st ev = st := by
  rw [combineStep.eq_def, if_pos h]

/-- A halted state absorbs every further event sequence. -/
theorem foldl_combineStep_halted (evs : List AssetEvent) :
    ∀ st : CombinedState, st.halted = true →
      evs.foldl combineStep st = st := by
  induction evs with
  | nil => intro st _; rfl
  | cons e evs ih =>
    intro st h
    rw [List.foldl_cons, combineStep_halted st e h]
    exact ih st h

/-- Each step only appends to the delivered output. -/
theorem combineStep_output_extend (st : CombinedState) (ev : AssetEvent) :
    ∃ tail, (combineStep st ev).output = st.output ++ tail := by
  rw [combineStep.eq_def]
  by_cases h : st.halted = true
  · exact ⟨[], by rw [if_pos h, List.append_nil]⟩
  · rw [if_neg h]
    rcases ev with ev | ev
    · cases ev with
      | next v =>
        cases hm : st.latestMesh with
        | some m => exact ⟨_, rfl⟩
        | none => exact ⟨[], by simp⟩
      | complete =>
        by_cases hmd : st.meshDone = true
        · exact ⟨_, by rw [if_pos hmd]⟩
        · exact ⟨[], by rw [if_neg hmd, List.append_nil]⟩
      | error => exact ⟨_, rfl⟩
    · cases ev with
      | next v =>
        cases hi : st.latestImage with
        | some i => exact ⟨_, rfl⟩
        | none => exact ⟨[], by simp⟩
      | complete =>
        by_cases hid : st.imageDone = true
        · exact ⟨_, by rw [if_pos hid]⟩
        · exact ⟨[], by rw [if_neg hid, List.append_nil]⟩
      | error => exact ⟨_, rfl⟩

/-- Processing any event sequence only appends to the delivered output. -/
theorem foldl_output_extend (evs : List AssetEvent) :
    ∀ st : CombinedState,
      ∃ tail, (evs.foldl combineStep st).output = st.output ++ tail := by
  induction evs with
  | nil => intro st; exact ⟨[], by rw [List.foldl_nil, List.append_nil]⟩
  | cons e evs ih =>
    intro st
    obtain ⟨t1, h1⟩ := combineStep_output_extend st e
    obtain ⟨t2, h2⟩ := ih (combineStep st e)
    exact ⟨t1 ++ t2, by rw [List.foldl_cons, h2, h1, List.append_assoc]⟩

/-- Step on an image value with a mesh value available: remember the
value, run the selector, emit the node. -/
theorem combineStep_inl_next_some (st : CombinedState)
    (v : ILoadStatusObject HTMLImage) (m : ILoadStatusObject IMesh)
    (hh : st.halted = false) (hm : st.latestMesh = some m) :
    combineStep st (Sum.inl (Ev.next v)) =
      { st with
        latestImage := some v
        node := assetsProject st.node v m
        output := st.output ++ [Ev.next (assetsProject st.node v m)] } := by
  simp [combineStep.eq_def, hh, hm]

/-- Step on an image value before any mesh value: only remember it. -/
theorem combineStep_inl_next_none (st : CombinedState)
    (v : ILoadStatusObject HTMLImage)
    (hh : st.halted = false) (hm : st.latestMesh = none) :
    combineStep st (Sum.inl (Ev.next v)) = { st with latestImage := some v } := by
  simp [combineStep.eq_def, hh, hm]

/-- Step on image completion when the mesh has already completed: the
combination completes and halts. -/
theorem combineStep_inl_complete_done (st : CombinedState)
    (hh : st.halted = false) (hmd : st.meshDone = true) :
    combineStep st (Sum.inl Ev.complete) =
      { st with
        imageDone := true
        halted := true
        output := st.output ++ [Ev.complete] } := by
  simp [combineStep.eq_def, hh, hmd]

/-- Step on image completion while the mesh is still running: only flag the
image branch as done. -/
theorem combineStep_inl_complete_wait (st : CombinedState)
    (hh : st.halted = false) (hmd : st.meshDone = false) :
    combineStep st (Sum.inl Ev.complete) = { st with imageDone := true } := by
  simp [combineStep.eq_def, hh, hmd]

/-- Step on an image error: the combination errors and halts. -/
theorem combineStep_inl_error (st : CombinedState) (hh : st.halted = false) :
    combineStep st (Sum.inl Ev.error) =
      { st with
        halted := true
        output := st.output ++ [Ev.error] } := by
  simp [combineStep.eq_def, hh]

/-- Step on a mesh value with an image value available. -/
theorem combineStep_inr_next_some (st : CombinedState)
    (v : ILoadStatusObject IMesh) (i : ILoadStatusObject HTMLImage)
    (hh : st.halted = false) (hi : st.latestImage = some i) :
    combineStep st (Sum.inr (Ev.next v)) =
      { st with
        latestMesh := some v
        node := assetsProject st.node i v
        output := st.output ++ [Ev.next (assetsProject st.node i v)] } := by
  simp [combineStep.eq_def, hh, hi]

/-- Step on a mesh value before any image value: only remember it. -/
theorem combineStep_inr_next_none (st : CombinedState)
    (v : ILoadStatusObject IMesh)
    (hh : st.halted = false) (hi : st.latestImage = none) :
    combineStep st (Sum.inr (Ev.next v)) = { st with latestMesh := some v } := by
  simp [combineStep.eq_def, hh, hi]

/-- Step on mesh completion when the image has already completed. -/
theorem combineStep_inr_complete_done (st : CombinedState)
    (hh : st.halted = false) (hid : st.imageDone = true) :
    combineStep st (Sum.inr Ev.complete) =
      { st with
        meshDone := true
        halted := true
        output := st.output ++ [Ev.complete] } := by
  simp [combineStep.eq_def, hh, hid]

/-- Step on mesh completion while the image is still running. -/
theorem combineStep_inr_complete_wait (st : CombinedState)
    (hh : st.halted = false) (hid : st.imageDone = false) :
    combineStep st (Sum.inr Ev.complete) = { st with meshDone := true } := by
  simp [combineStep.eq_def, hh, hid]

/-- Step on a mesh error: the combination errors and halts.  (The embedded
mesh trace never errors; the lemma covers the operator itself.) -/
theorem combineStep_inr_error (st : CombinedState) (hh : st.halted = false) :
    combineStep st (Sum.inr Ev.error) =
      { st with
        halted := true
        output := st.output ++ [Ev.error] } := by
  simp [combineStep.eq_def, hh]

/-- Splitting one trailing event off a run. -/
theorem cacheAssetsRun_append_singleton (n : Node) (p : List AssetEvent)
    (e : AssetEvent) :
    cacheAssetsRun n (p ++ [e]) = combineStep (cacheAssetsRun n p) e := by
  rw [cacheAssetsRun, cacheAssetsRun, List.foldl_append, List.foldl_cons,
    List.foldl_nil]

/-- Invariant of a `cacheAssets` run: the completion flags record delivery
of the sources' `complete` notifications, a delivered `complete` requires
both flags, a delivered `error` stems from a source `error` and halts the
machine, and a halted machine has delivered a terminal notification. -/
theorem runInvariant (n : Node) (p : List AssetEvent) :
    ((cacheAssetsRun n p).imageDone = true →
        (Sum.inl Ev.complete : AssetEvent) ∈ p) ∧
    ((cacheAssetsRun n p).meshDone = true →
        (Sum.inr Ev.complete : AssetEvent) ∈ p) ∧
    (Ev.complete ∈ (cacheAssetsRun n p).output →
        (cacheAssetsRun n p).imageDone = true ∧
          (cacheAssetsRun n p).meshDone = true) ∧
    (Ev.error ∈ (cacheAssetsRun n p).output →
        (Sum.inl Ev.error : AssetEvent) ∈ p ∨
          (Sum.inr Ev.error : AssetEvent) ∈ p) ∧
    (Ev.error ∈ (cacheAssetsRun n p).output →
        (cacheAssetsRun n p).halted = true) ∧
    ((cacheAssetsRun n p).halted = true →
        Ev.complete ∈ (cacheAssetsRun n p).output ∨
          Ev.error ∈ (cacheAssetsRun n p).output) := by
  induction p using List.reverseRecOn with
  | nil => simp [cacheAssetsRun, initialState]
  | append_singleton p e ih =>
    obtain ⟨i1, i2, i3, i4, i5, i6⟩ := ih
    rw [cacheAssetsRun_append_singleton]
    by_cases hh : (cacheAssetsRun n p).halted = true
    · rw [combineStep_halted _ e hh]
      refine ⟨fun h => List.mem_append_left _ (i1 h),
        fun h => List.mem_append_left _ (i2 h), i3, ?_, i5, i6⟩
      intro h
      rcases i4 h with h | h
      · exact Or.inl (List.mem_append_left _ h)
      · exact Or.inr (List.mem_append_left _ h)
    · have hh' : (cacheAssetsRun n p).halted = false :=
        Bool.not_eq_true _ ▸ eq_false_of_ne_true hh
      rcases e with ev | ev
      · cases ev with
        | next v =>
          cases hm : (cacheAssetsRun n p).latestMesh with
          | some m =>
            rw [combineStep_inl_next_some _ v m hh' hm]
            refine ⟨fun h => List.mem_append_left _ (i1 h),
              fun h => List.mem_append_left _ (i2 h), ?_, ?_, ?_, ?_⟩
            · intro h
              rcases List.mem_append.mp h with h | h
              · exact i3 h
              · simp at h
            · intro h
              rcases List.mem_append.mp h with h | h
              · rcases i4 h with h | h
                · exact Or.inl (List.mem_append_left _ h)
                · exact Or.inr (List.mem_append_left _ h)
              · simp at h
            · intro h
              rcases List.mem_append.mp h with h | h
              · exact i5 h
              · simp at h
            · intro h
              rcases i6 h with h | h
              · exact Or.inl (List.mem_append_left _ h)
              · exact Or.inr (List.mem_append_left _ h)
          | none =>
            rw [combineStep_inl_next_none _ v hh' hm]
            refine ⟨fun h => List.mem_append_left _ (i1 h),
              fun h => List.mem_append_left _ (i2 h), i3, ?_, i5, i6⟩
            intro h
            rcases i4 h with h | h
            · exact Or.inl (List.mem_append_left _ h)
            · exact Or.inr (List.mem_append_left _ h)
        | complete =>
          by_cases hmd : (cacheAssetsRun n p).meshDone = true
          · rw [combineStep_inl_complete_done _ hh' hmd]
            refine ⟨fun _ => List.mem_append_right _ (List.mem_singleton.mpr rfl),
              fun _ => List.mem_append_left _ (i2 hmd),
              fun _ => ⟨rfl, hmd⟩, ?_, fun _ => rfl, ?_⟩
            · intro h
              rcases List.mem_append.mp h with h | h
              · rcases i4 h with h | h
                · exact Or.inl (List.mem_append_left _ h)
                · exact Or.inr (List.mem_append_left _ h)
              · simp at h
            · intro _
              exact Or.inl (List.mem_append_right _ (List.mem_singleton.mpr rfl))
          · have hmd' : (cacheAssetsRun n p).meshDone = false :=
              Bool.not_eq_true _ ▸ eq_false_of_ne_true hmd
            rw [combineStep_inl_complete_wait _ hh' hmd']
            refine ⟨fun _ => List.mem_append_right _ (List.mem_singleton.mpr rfl),
              fun h => List.mem_append_left _ (i2 h),
              fun h => ⟨rfl, (i3 h).2⟩, ?_, i5, ?_⟩
            · intro h
              rcases i4 h with h | h
              · exact Or.inl (List.mem_append_left _ h)
              · exact Or.inr (List.mem_append_left _ h)
            · exact i6
        | error =>
          rw [combineStep_inl_error _ hh']
          refine ⟨fun h => List.mem_append_left _ (i1 h),
            fun h => List.mem_append_left _ (i2 h), ?_, ?_, fun _ => rfl, ?_⟩
          · intro h
            rcases List.mem_append.mp h with h | h
            · exact i3 h
            · simp at h
          · intro _
            exact Or.inl (List.mem_append_right _ (List.mem_singleton.mpr rfl))
          · intro _
            exact Or.inr (List.mem_append_right _ (List.mem_singleton.mpr rfl))
      · cases ev with
        | next v =>
          cases hi : (cacheAssetsRun n p).latestImage with
          | some i =>
            rw [combineStep_inr_next_some _ v i hh' hi]
            refine ⟨fun h => List.mem_append_left _ (i1 h),
              fun h => List.mem_append_left _ (i2 h), ?_, ?_, ?_, ?_⟩
            · intro h
              rcases List.mem_append.mp h with h | h
              · exact i3 h
              · simp at h
            · intro h
              rcases List.mem_append.mp h with h | h
              · rcases i4 h with h | h
                · exact Or.inl (List.mem_append_left _ h)
                · exact Or.inr (List.mem_append_left _ h)
              · simp at h
            · intro h
              rcases List.mem_append.mp h with h | h
              · exact i5 h
              · simp at h
            · intro h
              rcases i6 h with h | h
              · exact Or.inl (List.mem_append_left _ h)
              · exact Or.inr (List.mem_append_left _ h)
          | none =>
            rw [combineStep_inr_next_none _ v hh' hi]
            refine ⟨fun h => List.mem_append_left _ (i1 h),
              fun h => List.mem_append_left _ (i2 h), i3, ?_, i5, i6⟩
            intro h
            rcases i4 h with h | h
            · exact Or.inl (List.mem_append_left _ h)
            · exact Or.inr (List.mem_append_left _ h)
        | complete =>
          by_cases hid : (cacheAssetsRun n p).imageDone = true
          · rw [combineStep_inr_complete_done _ hh' hid]
            refine ⟨fun _ => List.mem_append_left _ (i1 hid),
              fun _ => List.mem_append_right _ (List.mem_singleton.mpr rfl),
              fun _ => ⟨hid, rfl⟩, ?_, fun _ => rfl, ?_⟩
            · intro h
              rcases List.mem_append.mp h with h | h
              · rcases i4 h with h | h
                · exact Or.inl (List.mem_append_left _ h)
                · exact Or.inr (List.mem_append_left _ h)
              · simp at h
            · intro _
              exact Or.inl (List.mem_append_right _ (List.mem_singleton.mpr rfl))
          · have hid' : (cacheAssetsRun n p).imageDone = false :=
              Bool.not_eq_true _ ▸ eq_false_of_ne_true hid
            rw [combineStep_inr_complete_wait _ hh' hid']
            refine ⟨fun h => List.mem_append_left _ (i1 h),
              fun _ => List.mem_append_right _ (List.mem_singleton.mpr rfl),
              fun h => ⟨(i3 h).1, rfl⟩, ?_, i5, ?_⟩
            · intro h
              rcases i4 h with h | h
              · exact Or.inl (List.mem_append_left _ h)
              · exact Or.inr (List.mem_append_left _ h)
            · exact i6
        | error =>
          rw [combineStep_inr_error _ hh']
          refine ⟨fun h => List.mem_append_left _ (i1 h),
            fun h => List.mem_append_left _ (i2 h), ?_, ?_, fun _ => rfl, ?_⟩
          · intro h
            rcases List.mem_append.mp h with h | h
            · exact i3 h
            · simp at h
          · intro _
            exact Or.inr (List.mem_append_right _ (List.mem_singleton.mpr rfl))
          · intro _
            exact Or.inr (List.mem_append_right _ (List.mem_singleton.mpr rfl))

/-- Shape of the still-unprocessed suffix of one source trace relative to
the machine's per-source bookkeeping: either the source still has to
deliver its final value (possibly after further progress values), or only
its `complete` remains and the final value is the remembered latest, or the
source has been consumed entirely. -/
def SideState {γ : Type} (fin : ILoadStatusObject γ)
    (l : List (Ev (ILoadStatusObject γ))) (lat : Option (ILoadStatusObject γ))
    (done : Bool) : Prop :=
  (∃ ps : List (Nat × Nat),
      l = ps.map progressEvent ++ [Ev.next fin, Ev.complete] ∧ done = false) ∨
  (l = [Ev.complete] ∧ lat = some fin ∧ done = false) ∨
  (l = [] ∧ lat = some fin ∧ done = true)

/-- A source with at most one remaining event has already delivered its
final value, which is the remembered latest. -/
theorem SideState.latest_of_short {γ : Type} {fin : ILoadStatusObject γ}
    {l : List (Ev (ILoadStatusObject γ))} {lat : Option (ILoadStatusObject γ)}
    {done : Bool} (h : SideState fin l lat done) (hlen : l.length ≤ 1) :
    lat = some fin := by
  rcases h with ⟨ps, hps, _⟩ | ⟨_, hlat, _⟩ | ⟨_, hlat, _⟩
  · rw [hps] at hlen
    simp at hlen
  · exact hlat
  · exact hlat

/-- Core pairing lemma: processing any interleaving of the two source
traces from a live state whose bookkeeping matches the trace suffixes ends
with the node fields of the very last selector application, which pairs the
two final values.  The last hypothesis supplies the conclusion in case both
sides are already past their final value. -/
theorem combineAux {fI : ILoadStatusObject HTMLImage}
    {fM : ILoadStatusObject IMesh}
    {la : List (Ev (ILoadStatusObject HTMLImage))}
    {lb : List (Ev (ILoadStatusObject IMesh))}
    {evs : List AssetEvent}
    (hint : Interleave la lb evs) :
    ∀ st : CombinedState,
      SideState fI la st.latestImage st.imageDone →
      SideState fM lb st.latestMesh st.meshDone →
      st.halted = false →
      (la.length ≤ 1 → lb.length ≤ 1 →
        st.node.image = fI.object ∧ st.node.mesh = fM.object ∧
          st.node.loadStatus = ⟨fM.loaded.loaded + fI.loaded.loaded,
            fM.loaded.total + fI.loaded.total⟩) →
      (evs.foldl combineStep st).node.image = fI.object ∧
        (evs.foldl combineStep st).node.mesh = fM.object ∧
        (evs.foldl combineStep st).node.loadStatus =
          ⟨fM.loaded.loaded + fI.loaded.loaded,
            fM.loaded.total + fI.loaded.total⟩ := by
  induction hint with
  | nil =>
    intro st _ _ _ H
    exact H (by simp) (by simp)
  | @left a la lb cs hrec ih =>
    intro st hA hB hh H
    rw [List.foldl_cons]
    rcases hA with ⟨ps, hps, hdone⟩ | ⟨hl, hlat, hdone⟩ | ⟨hl, _, _⟩
    · cases ps with
      | nil =>
        simp only [List.map_nil, List.nil_append] at hps
        injection hps with ha hla
        subst hla
        cases hm : st.latestMesh with
        | some m =>
          rw [ha, combineStep_inl_next_some st fI m hh hm]
          apply ih
          · exact Or.inr (Or.inl ⟨rfl, rfl, hdone⟩)
          · exact hB
          · exact hh
          · intro _ hlb
            have hlat2 : st.latestMesh = some fM := hB.latest_of_short hlb
            rw [hm] at hlat2
            injection hlat2 with hm2
            subst hm2
            simp [assetsProject]
        | none =>
          rw [ha, combineStep_inl_next_none st fI hh hm]
          apply ih
          · exact Or.inr (Or.inl ⟨rfl, rfl, hdone⟩)
          · exact hB
          · exact hh
          · intro _ hlb
            have hlat2 : st.latestMesh = some fM := hB.latest_of_short hlb
            rw [hm] at hlat2
            exact absurd hlat2 (by simp)
      | cons p ps =>
        simp only [List.map_cons, List.cons_append] at hps
        injection hps with ha hla
        subst hla
        cases hm : st.latestMesh with
        | some m =>
          rw [ha, progressEvent, combineStep_inl_next_some st _ m hh hm]
          apply ih
          · exact Or.inl ⟨ps, rfl, hdone⟩
          · exact hB
          · exact hh
          · intro hla1 _
            rw [List.length_append, List.length_map] at hla1
            simp at hla1
        | none =>
          rw [ha, progressEvent, combineStep_inl_next_none st _ hh hm]
          apply ih
          · exact Or.inl ⟨ps, rfl, hdone⟩
          · exact hB
          · exact hh
          · intro hla1 _
            rw [List.length_append, List.length_map] at hla1
            simp at hla1
    · injection hl with ha hla
      subst hla
      cases hmd : st.meshDone with
      | true =>
        have hclosed : lb = [] := by
          rcases hB with ⟨ps, _, hd⟩ | ⟨_, _, hd⟩ | ⟨h0, _, _⟩
          · rw [hmd] at hd; exact absurd hd (by simp)
          · rw [hmd] at hd; exact absurd hd (by simp)
          · exact h0
        subst hclosed
        cases hrec
        rw [ha, combineStep_inl_complete_done st hh hmd, List.foldl_nil]
        exact H (by simp) (by simp)
      | false =>
        rw [ha, combineStep_inl_complete_wait st hh hmd]
        apply ih
        · exact Or.inr (Or.inr ⟨rfl, hlat, rfl⟩)
        · exact hB
        · exact hh
        · intro _ hlb
          exact H (by simp) hlb
    · exact absurd hl (by simp)
  | @right b la lb cs hrec ih =>
    intro st hA hB hh H
    rw [List.foldl_cons]
    rcases hB with ⟨ps, hps, hdone⟩ | ⟨hl, hlat, hdone⟩ | ⟨hl, _, _⟩
    · cases ps with
      | nil =>
        simp only [List.map_nil, List.nil_append] at hps
        injection hps with hb hlb
        subst hlb
        cases hi : st.latestImage with
        | some i =>
          rw [hb, combineStep_inr_next_some st fM i hh hi]
          apply ih
          · exact hA
          · exact Or.inr (Or.inl ⟨rfl, rfl, hdone⟩)
          · exact hh
          · intro hla _
            have hlat2 : st.latestImage = some fI := hA.latest_of_short hla
            rw [hi] at hlat2
            injection hlat2 with hi2
            subst hi2
            simp [assetsProject]
        | none =>
          rw [hb, combineStep_inr_next_none st fM hh hi]
          apply ih
          · exact hA
          · exact Or.inr (Or.inl ⟨rfl, rfl, hdone⟩)
          · exact hh
          · intro hla _
            have hlat2 : st.latestImage = some fI := hA.latest_of_short hla
            rw [hi] at hlat2
            exact absurd hlat2 (by simp)
      | cons p ps =>
        simp only [List.map_cons, List.cons_append] at hps
        injection hps with hb hlb
        subst hlb
        cases hi : st.latestImage with
        | some i =>
          rw [hb, progressEvent, combineStep_inr_next_some st _ i hh hi]
          apply ih
          · exact hA
          · exact Or.inl ⟨ps, rfl, hdone⟩
          · exact hh
          · intro _ hlb1
            rw [List.length_append, List.length_map] at hlb1
            simp at hlb1
        | none =>
          rw [hb, progressEvent, combineStep_inr_next_none st _ hh hi]
          apply ih
          · exact hA
          · exact Or.inl ⟨ps, rfl, hdone⟩
          · exact hh
          · intro _ hlb1
            rw [List.length_append, List.length_map] at hlb1
            simp at hlb1
    · injection hl with hb hlb
      subst hlb
      cases hid : st.imageDone with
      | true =>
        have hclosed : la = [] := by
          rcases hA with ⟨ps, _, hd⟩ | ⟨_, _, hd⟩ | ⟨h0, _, _⟩
          · rw [hid] at hd; exact absurd hd (by simp)
          · rw [hid] at hd; exact absurd hd (by simp)
          · exact h0
        subst hclosed
        cases hrec
        rw [hb, combineStep_inr_complete_done st hh hid, List.foldl_nil]
        exact H (by simp) (by simp)
      | false =>
        rw [hb, combineStep_inr_complete_wait st hh hid]
        apply ih
        · exact hA
        · exact Or.inr (Or.inr ⟨rfl, hlat, rfl⟩)
        · exact hh
        · intro hla _
          exact H hla (by simp)
    · exact absurd hl (by simp)

/-- Final load status the mesh fetch reports: zero byte counts for the
non-merged short-circuit, otherwise the transport's final byte counts. -/
def meshFinalStatus (n : Node) (rsp : MeshResponse) : ILoadStatus :=
  if n.merged = false then ⟨0, 0⟩ else ⟨rsp.finalLoaded, rsp.finalTotal⟩

/-- Final mesh object the mesh fetch delivers: the empty mesh for the
non-merged short-circuit or a non-success status, else the decoded
payload. -/
def meshFinalObject (n : Node) (rsp : MeshResponse) : IMesh :=
  if n.merged = false then emptyMesh
  else if rsp.status = 200 then rsp.payload else emptyMesh

/-- The mesh trace always consists of progress events followed by a final
value and a `complete`. -/
theorem cacheMesh_trace_shape (n : Node) (rsp : MeshResponse) :
    ∃ ps : List (Nat × Nat),
      (cacheMesh n rsp).trace = ps.map progressEvent ++
        [Ev.next ⟨meshFinalStatus n rsp, some (meshFinalObject n rsp)⟩,
          Ev.complete] := by
  by_cases h : n.merged = false
  · refine ⟨[], ?_⟩
    simp [cacheMesh, meshFinalStatus, meshFinalObject, h]
  · refine ⟨rsp.progress, ?_⟩
    simp [cacheMesh, meshFinalStatus, meshFinalObject, h]

/-- The image trace on a successful outcome: progress events, the decoded
image, `complete`. -/
theorem cacheImage_success_shape (rsp : ImageResponse) (l t : Nat)
    (img : HTMLImage) (h : rsp.outcome = ImageOutcome.success l t img) :
    cacheImage rsp = rsp.progress.map progressEvent ++
      [Ev.next ⟨⟨l, t⟩, some img⟩, Ev.complete] := by
  rw [cacheImage, h]

/-- The image trace on a failure: progress events, then `error`. -/
theorem cacheImage_failure_shape (rsp : ImageResponse)
    (h : rsp.outcome = ImageOutcome.failure) :
    cacheImage rsp = rsp.progress.map progressEvent ++ [Ev.error] := by
  rw [cacheImage, h]

/-- The image trace contains an `error` exactly when the outcome is a
failure. -/
theorem cacheImage_error_mem (rsp : ImageResponse) :
    Ev.error ∈ cacheImage rsp ↔ rsp.outcome = ImageOutcome.failure := by
  rw [cacheImage]
  cases h : rsp.outcome with
  | success l t img => simp [progressEvent]
  | failure => simp [progressEvent]

/-- A failed image trace contains no `complete`. -/
theorem cacheImage_no_complete_of_failure (rsp : ImageResponse)
    (h : rsp.outcome = ImageOutcome.failure) :
    Ev.complete ∉ cacheImage rsp := by
  rw [cacheImage_failure_shape rsp h]
  intro hc
  rcases List.mem_append.mp hc with hc | hc
  · obtain ⟨p, _, hpe⟩ := List.mem_map.mp hc
    rw [progressEvent] at hpe
    exact absurd hpe (by simp)
  · rcases List.mem_cons.mp hc with hc | hc
    · exact absurd hc (by simp)
    · exact absurd hc (List.not_mem_nil _)

/-- The mesh trace never contains an `error`: a mesh transport failure is
absorbed, not propagated. -/
theorem cacheMesh_no_error (n : Node) (rsp : MeshResponse) :
    ∀ e ∈ (cacheMesh n rsp).trace, e ≠ Ev.error := by
  obtain ⟨ps, hms⟩ := cacheMesh_trace_shape n rsp
  rw [hms]
  intro e he
  rcases List.mem_append.mp he with he | he
  · obtain ⟨p, _, hpe⟩ := List.mem_map.mp he
    rw [← hpe, progressEvent]
    simp
  · rcases List.mem_cons.mp he with rfl | he
    · simp
    · rcases List.mem_cons.mp he with rfl | he
      · simp
      · exact absurd he (List.not_mem_nil e)

/-- A left event occurs in an interleaving exactly when it occurs in the
left source trace. -/
theorem Interleave.inl_mem {α β : Type} {la : List α} {lb : List β}
    {cs : List (Sum α β)} (h : Interleave la lb cs) (x : α) :
    (Sum.inl x ∈ cs) ↔ x ∈ la := by
  induction h with
  | nil => simp
  | left h ih => simp [ih]
  | right h ih => simp [ih]

/-- A right event occurs in an interleaving exactly when it occurs in the
right source trace. -/
theorem Interleave.inr_mem {α β : Type} {la : List α} {lb : List β}
    {cs : List (Sum α β)} (h : Interleave la lb cs) (x : β) :
    (Sum.inr x ∈ cs) ↔ x ∈ lb := by
  induction h with
  | nil => simp
  | left h ih => simp [ih]
  | right h ih => simp [ih]

/-- C4: for every successful `cacheAssets` invocation, the node's
resulting `loadStatus.loaded` is the sum of the final reported loaded byte
counts of the image and mesh fetches, and `loadStatus.total` the sum of
their final totals. -/
theorem cacheAssets_loadStatus_sums (n : Node) (rI : ImageResponse)
    (rM : MeshResponse) (evs : List AssetEvent) (l t : Nat)
    (img : HTMLImage) (hout : rI.outcome = ImageOutcome.success l t img)
    (hint : Interleave (cacheImage rI) (cacheMesh n rM).trace evs) :
    (cacheAssetsRun n evs).node.loadStatus =
      ⟨(meshFinalStatus n rM).loaded + l, (meshFinalStatus n rM).total + t⟩ := by
  obtain ⟨ps, hms⟩ := cacheMesh_trace_shape n rM
  have his := cacheImage_success_shape rI l t img hout
  have hA : SideState ⟨⟨l, t⟩, some img⟩ (cacheImage rI)
      (initialState n).latestImage (initialState n).imageDone :=
    Or.inl ⟨rI.progress, his, rfl⟩
  have hB : SideState ⟨meshFinalStatus n rM, some (meshFinalObject n rM)⟩
      (cacheMesh n rM).trace (initialState n).latestMesh
      (initialState n).meshDone :=
    Or.inl ⟨ps, hms, rfl⟩
  have hH : (cacheImage rI).length ≤ 1 → ((cacheMesh n rM).trace).length ≤ 1 →
      (initialState n).node.image = some img ∧
        (initialState n).node.mesh = some (meshFinalObject n rM) ∧
        (initialState n).node.loadStatus =
          ⟨(meshFinalStatus n rM).loaded + l, (meshFinalStatus n rM).total + t⟩ := by
    intro h1 _
    rw [his] at h1
    simp at h1
  exact (combineAux hint (initialState n) hA hB rfl hH).2.2

/-- Concrete image-transport environment used by witnesses: no progress
events, success with 5 of 10 bytes reported. -/
def wImageResponse : ImageResponse := ⟨[], ImageOutcome.success 5 10 ⟨1⟩⟩

/-- Concrete schedule used by witnesses: image notifications first, then
mesh notifications. -/
def wEvents : List AssetEvent :=
  [Sum.inl (Ev.next ⟨⟨5, 10⟩, some ⟨1⟩⟩), Sum.inl Ev.complete,
    Sum.inr (Ev.next ⟨⟨0, 0⟩, some emptyMesh⟩), Sum.inr Ev.complete]

/-- The concrete schedule interleaves the concrete image and mesh traces. -/
theorem wEvents_interleaves :
    Interleave (cacheImage wImageResponse)
      (cacheMesh sampleNode sampleMeshResponse).trace wEvents := by
  show Interleave
    [Ev.next ⟨⟨5, 10⟩, some ⟨1⟩⟩, Ev.complete]
    [Ev.next ⟨⟨0, 0⟩, some emptyMesh⟩, Ev.complete]
    wEvents
  exact .left (.left (.right (.right .nil)))

/-- Witness for C4 at the concrete run. -/
theorem cacheAssets_loadStatus_sums_witness :
    wImageResponse.outcome = ImageOutcome.success 5 10 ⟨1⟩ ∧
      (cacheAssetsRun sampleNode wEvents).node.loadStatus =
        ⟨(meshFinalStatus sampleNode sampleMeshResponse).loaded + 5,
          (meshFinalStatus sampleNode sampleMeshResponse).total + 10⟩ :=
  ⟨rfl, cacheAssets_loadStatus_sums sampleNode wImageResponse
    sampleMeshResponse wEvents 5 10 ⟨1⟩ rfl wEvents_interleaves⟩

/-- C6: the combined operation fails exactly when the image path fails —
an `error` is delivered iff the image outcome is a failure — while the
mesh trace never contains an `error`, and a non-success mesh transport
status is fully absorbed by resolving the mesh branch to the empty mesh
`{faces: [], vertices: []}`. -/
theorem cacheAssets_error_iff_image_failure (n : Node) (rI : ImageResponse)
    (rM : MeshResponse) (evs : List AssetEvent)
    (hint : Interleave (cacheImage rI) (cacheMesh n rM).trace evs) :
    (Ev.error ∈ (cacheAssetsRun n evs).output ↔
        rI.outcome = ImageOutcome.failure) ∧
    (∀ e ∈ (cacheMesh n rM).trace, e ≠ Ev.error) ∧
    (n.merged = true → rM.status ≠ 200 →
      (cacheMesh n rM).trace = rM.progress.map progressEvent ++
        [Ev.next ⟨⟨rM.finalLoaded, rM.finalTotal⟩, some emptyMesh⟩,
          Ev.complete]) := by
  refine ⟨⟨?_, ?_⟩, cacheMesh_no_error n rM, ?_⟩
  · intro herr
    obtain ⟨_, _, _, i4, _, _⟩ := runInvariant n evs
    rcases i4 herr with hmem | hmem
    · exact (cacheImage_error_mem rI).mp ((hint.inl_mem _).mp hmem)
    · exact absurd rfl
        (cacheMesh_no_error n rM _ ((hint.inr_mem _).mp hmem))
  · intro hfail
    have hmem : (Sum.inl Ev.error : AssetEvent) ∈ evs := by
      refine (hint.inl_mem _).mpr ?_
      rw [cacheImage_failure_shape rI hfail]
      exact List.mem_append_right _ (List.mem_singleton.mpr rfl)
    obtain ⟨p, q, hpq⟩ := List.append_of_mem hmem
    subst hpq
    rw [cacheAssetsRun, List.foldl_append, List.foldl_cons,
      show List.foldl combineStep (initialState n) p = cacheAssetsRun n p from rfl]
    by_cases hh : (cacheAssetsRun n p).halted = true
    · obtain ⟨i1, _, i3, _, _, i6⟩ := runInvariant n p
      rcases i6 hh with hc | he
      · exfalso
        have : (Sum.inl Ev.complete : AssetEvent) ∈ p := i1 (i3 hc).1
        have : Ev.complete ∈ cacheImage rI :=
          (hint.inl_mem _).mp (List.mem_append_left _ this)
        exact cacheImage_no_complete_of_failure rI hfail this
      · rw [combineStep_halted _ _ hh, foldl_combineStep_halted q _ hh]
        exact he
    · have hh' : (cacheAssetsRun n p).halted = false :=
        Bool.not_eq_true _ ▸ eq_false_of_ne_true hh
      rw [combineStep_inl_error _ hh']
      obtain ⟨tail, htail⟩ := foldl_output_extend q
        { cacheAssetsRun n p with
          halted := true
          output := (cacheAssetsRun n p).output ++ [Ev.error] }
      rw [htail]
      exact List.mem_append_left _
        (List.mem_append_right _ (List.mem_singleton.mpr rfl))
  · intro hm hs
    simp [cacheMesh, hm, hs]

/-- Concrete failing image-transport environment used by witnesses. -/
def wFailImageResponse : ImageResponse := ⟨[], ImageOutcome.failure⟩

/-- Concrete schedule of the failing run used by witnesses. -/
def wFailEvents : List AssetEvent :=
  [Sum.inl Ev.error, Sum.inr (Ev.next ⟨⟨0, 0⟩, some emptyMesh⟩),
    Sum.inr Ev.complete]

/-- The failing schedule interleaves the failing image trace with the
concrete mesh trace. -/
theorem wFailEvents_interleaves :
    Interleave (cacheImage wFailImageResponse)
      (cacheMesh sampleNode sampleMeshResponse).trace wFailEvents := by
  show Interleave
    [Ev.error]
    [Ev.next ⟨⟨0, 0⟩, some emptyMesh⟩, Ev.complete]
    wFailEvents
  exact .left (.right (.right .nil))

/-- Witness for C6 at the concrete failing run. -/
theorem cacheAssets_error_iff_image_failure_witness :
    (Ev.error ∈ (cacheAssetsRun sampleNode wFailEvents).output ↔
        wFailImageResponse.outcome = ImageOutcome.failure) ∧
      (∀ e ∈ (cacheMesh sampleNode sampleMeshResponse).trace,
        e ≠ Ev.error) ∧
      (sampleNode.merged = true → sampleMeshResponse.status ≠ 200 →
        (cacheMesh sampleNode sampleMeshResponse).trace =
          sampleMeshResponse.progress.map progressEvent ++
            [Ev.next ⟨⟨sampleMeshResponse.finalLoaded,
                sampleMeshResponse.finalTotal⟩, some emptyMesh⟩,
              Ev.complete]) :=
  cacheAssets_error_iff_image_failure sampleNode wFailImageResponse
    sampleMeshResponse wFailEvents wFailEvents_interleaves

/-- C3 as claimed: for every invocation of `cacheAssets` and every schedule
of the two sub-fetch traces, (a) whenever the node is emitted, both
sub-fetches have already delivered their terminal `complete` and the
emitted node carries non-null (decoded) image and mesh fields, and (b)
once the combined operation signals failure no further progress or
completion events for that invocation are delivered. -/
def cacheAssetsAtomicClaim : Prop :=
  ∀ (n : Node) (rI : ImageResponse) (rM : MeshResponse)
    (evs : List AssetEvent),
    Interleave (cacheImage rI) (cacheMesh n rM).trace evs →
    (∀ (p : List AssetEvent) (m : Node), p <+: evs →
        Ev.next m ∈ (cacheAssetsRun n p).output →
        (Sum.inl Ev.complete : AssetEvent) ∈ p ∧
          (Sum.inr Ev.complete : AssetEvent) ∈ p ∧
          m.image.isSome = true ∧ m.mesh.isSome = true) ∧
    (∀ p q : List AssetEvent, p <+: q → q <+: evs →
        Ev.error ∈ (cacheAssetsRun n p).output →
        (cacheAssetsRun n q).output = (cacheAssetsRun n p).output)

/-- Image response of the C3 counterexample: one progress notification of
10 of 100 bytes, then success. -/
def cImageResponse : ImageResponse := ⟨[(10, 100)], ImageOutcome.success 100 100 ⟨1⟩⟩

/-- Schedule of the C3 counterexample: the mesh branch finishes first, then
the image progress notification arrives, then the image finishes. -/
def cEvents : List AssetEvent :=
  [Sum.inr (Ev.next ⟨⟨0, 0⟩, some emptyMesh⟩), Sum.inr Ev.complete,
    Sum.inl (Ev.next ⟨⟨10, 100⟩, none⟩),
    Sum.inl (Ev.next ⟨⟨100, 100⟩, some ⟨1⟩⟩), Sum.inl Ev.complete]

/-- Prefix of the counterexample schedule ending at the image progress
notification, while the image fetch is still in progress. -/
def cPrefixEvents : List AssetEvent :=
  [Sum.inr (Ev.next ⟨⟨0, 0⟩, some emptyMesh⟩), Sum.inr Ev.complete,
    Sum.inl (Ev.next ⟨⟨10, 100⟩, none⟩)]

/-- Node emitted by the counterexample run at the image progress pairing:
its `image` field is the progress notification's null object. -/
def cNode1 : Node :=
  assetsProject sampleNode ⟨⟨10, 100⟩, none⟩ ⟨⟨0, 0⟩, some emptyMesh⟩

/-- Counterexample to C3: with the mesh branch already complete, the
`combineLatest` pairing emits the node at the image fetch's progress
notification — before the image fetch terminates and with a null `image`
field — so the claimed atomic-emission property is false. -/
theorem cacheAssets_atomic_claim_false : ¬ cacheAssetsAtomicClaim := by
  intro hclaim
  have hint : Interleave (cacheImage cImageResponse)
      (cacheMesh sampleNode sampleMeshResponse).trace cEvents := by
    show Interleave
      [Ev.next ⟨⟨10, 100⟩, none⟩, Ev.next ⟨⟨100, 100⟩, some ⟨1⟩⟩, Ev.complete]
      [Ev.next ⟨⟨0, 0⟩, some emptyMesh⟩, Ev.complete]
      cEvents
    exact .right (.right (.left (.left (.left .nil))))
  have hpre : cPrefixEvents <+: cEvents :=
    ⟨[Sum.inl (Ev.next ⟨⟨100, 100⟩, some ⟨1⟩⟩), Sum.inl Ev.complete], rfl⟩
  have hmem : Ev.next cNode1 ∈ (cacheAssetsRun sampleNode cPrefixEvents).output := by
    show Ev.next cNode1 ∈ [Ev.next cNode1]
    exact List.mem_singleton.mpr rfl
  have h := ((hclaim sampleNode cImageResponse sampleMeshResponse cEvents
    hint).1 cPrefixEvents cNode1 hpre hmem).2.2.1
  rw [show cNode1.image = none from rfl] at h
  exact absurd h (by simp)

/-- C3 amended: the combined operation delivers its `complete` only after
both sub-fetches have delivered theirs; once it signals failure, no
further progress or completion events for that invocation are delivered;
and at the end of a successful run the node's `image` and `mesh` fields
hold the decoded, non-null final assets.  (Contrary to the original claim,
the node is also emitted on earlier pairings — whenever a source emits
once both have emitted — and such intermediate emissions can carry the
null objects of progress notifications.) -/
theorem cacheAssets_completion_after_both_terminal (n : Node)
    (rI : ImageResponse) (rM : MeshResponse) (evs : List AssetEvent)
    (hint : Interleave (cacheImage rI) (cacheMesh n rM).trace evs) :
    (∀ p : List AssetEvent, p <+: evs →
      Ev.complete ∈ (cacheAssetsRun n p).output →
      (Sum.inl Ev.complete : AssetEvent) ∈ p ∧
        (Sum.inr Ev.complete : AssetEvent) ∈ p) ∧
    (∀ p q : List AssetEvent, p <+: q → q <+: evs →
      Ev.error ∈ (cacheAssetsRun n p).output →
      (cacheAssetsRun n q).output = (cacheAssetsRun n p).output) ∧
    (∀ (l t : Nat) (img : HTMLImage),
      rI.outcome = ImageOutcome.success l t img →
      (cacheAssetsRun n evs).node.image = some img ∧
        (cacheAssetsRun n evs).node.mesh = some (meshFinalObject n rM)) := by
  refine ⟨?_, ?_, ?_⟩
  · intro p _ hc
    obtain ⟨i1, i2, i3, _, _, _⟩ := runInvariant n p
    exact ⟨i1 (i3 hc).1, i2 (i3 hc).2⟩
  · intro p q hpq _ herr
    obtain ⟨_, _, _, _, i5, _⟩ := runInvariant n p
    obtain ⟨r, hr⟩ := hpq
    rw [← hr, cacheAssetsRun, List.foldl_append,
      show List.foldl combineStep (initialState n) p = cacheAssetsRun n p from rfl,
      foldl_combineStep_halted r _ (i5 herr)]
  · intro l t img hout
    obtain ⟨ps, hms⟩ := cacheMesh_trace_shape n rM
    have his := cacheImage_success_shape rI l t img hout
    have hA : SideState ⟨⟨l, t⟩, some img⟩ (cacheImage rI)
        (initialState n).latestImage (initialState n).imageDone :=
      Or.inl ⟨rI.progress, his, rfl⟩
    have hB : SideState ⟨meshFinalStatus n rM, some (meshFinalObject n rM)⟩
        (cacheMesh n rM).trace (initialState n).latestMesh
        (initialState n).meshDone :=
      Or.inl ⟨ps, hms, rfl⟩
    have hH : (cacheImage rI).length ≤ 1 →
        ((cacheMesh n rM).trace).length ≤ 1 →
        (initialState n).node.image = some img ∧
          (initialState n).node.mesh = some (meshFinalObject n rM) ∧
          (initialState n).node.loadStatus =
            ⟨(meshFinalStatus n rM).loaded + l,
              (meshFinalStatus n rM).total + t⟩ := by
      intro h1 _
      rw [his] at h1
      simp at h1
    have h := combineAux hint (initialState n) hA hB rfl hH
    exact ⟨h.1, h.2.1⟩

/-- Witness for the amended C3 at the concrete successful run. -/
theorem cacheAssets_completion_after_both_terminal_witness :
    Interleave (cacheImage wImageResponse)
        (cacheMesh sampleNode sampleMeshResponse).trace wEvents ∧
      ((∀ p : List AssetEvent, p <+: wEvents →
          Ev.complete ∈ (cacheAssetsRun sampleNode p).output →
          (Sum.inl Ev.complete : AssetEvent) ∈ p ∧
            (Sum.inr Ev.complete : AssetEvent) ∈ p) ∧
        (∀ p q : List AssetEvent, p <+: q → q <+: wEvents →
          Ev.error ∈ (cacheAssetsRun sampleNode p).output →
          (cacheAssetsRun sampleNode q).output =
            (cacheAssetsRun sampleNode p).output) ∧
        (∀ (l t : Nat) (img : HTMLImage),
          wImageResponse.outcome = ImageOutcome.success l t img →
          (cacheAssetsRun sampleNode wEvents).node.image = some img ∧
            (cacheAssetsRun sampleNode wEvents).node.mesh =
              some (meshFinalObject sampleNode sampleMeshResponse))) :=
  ⟨wEvents_interleaves,
    cacheAssets_completion_after_both_terminal sampleNode wImageResponse
      sampleMeshResponse wEvents wEvents_interleaves⟩

end MapillaryJS
